import Mathlib

/-!
Verification development for the wav2letter lexicon-constrained beam-search
decoder exposed through `src/bindings/python/wav2letter/_decoder.cpp`.

The binding file only declares the surface (classes, methods, attributes); the
Trie / decoder implementation bodies live outside the given sources, so the
data model and operations below are modelled from the specification document
(each such definition says so in its doc comment).  Scores that are C++
`float`s are modelled as `ℚ` where the code only adds / compares them; the
LOGADD smearing statement instantiates the score type at `ℝ` so that
log-sum-exp is exact.  The floating-point "numerically-stable log-add"
routine is passed around as an explicit function parameter (`lse`).
-/

namespace W2L

/-- Modelled from the spec: the `SmearingMode` enum of §3 (bound at
`src/bindings/python/wav2letter/_decoder.cpp` lines 88-91). -/
inductive SmearingMode : Type where
  | NONE
  | MAX
  | LOGADD
deriving DecidableEq

/-- Modelled from the spec: a `TrieNode` of §3 — a node of a fixed-branching
prefix tree holding zero-or-more `(word_id, unigram_score)` label pairs, a
derived `maxScore` summary (absent before smearing, hence `WithBot`), and an
ordered token-index → child mapping (unused slots simply absent). -/
inductive TrieNode (α : Type) : Type where
  | mk (labels : List (Nat × α)) (maxScore : WithBot α) (children : List (Nat × TrieNode α))

/-- Label pairs `(word_id, unigram_score)` attached to a node. -/
def TrieNode.labels {α : Type} : TrieNode α → List (Nat × α)
  | .mk l _ _ => l

/-- Post-smearing score summary of a node (`⊥` = not yet smeared / no label
below). -/
def TrieNode.maxScore {α : Type} : TrieNode α → WithBot α
  | .mk _ m _ => m

/-- Token-index → child association list of a node. -/
def TrieNode.children {α : Type} : TrieNode α → List (Nat × TrieNode α)
  | .mk _ _ c => c

/-- Modelled from the spec: lookup of one child slot by token index in the
ordered child mapping. -/
def findChild {α : Type} (i : Nat) : List (Nat × TrieNode α) → Option (TrieNode α)
  | [] => none
  | p :: rest => if p.1 = i then some p.2 else findChild i rest

/-- Modelled from the spec: overwrite the child slot for token index `i`. -/
def replaceChild {α : Type} (i : Nat) (c : TrieNode α) :
    List (Nat × TrieNode α) → List (Nat × TrieNode α)
  | [] => []
  | p :: rest => if p.1 = i then (i, c) :: rest else p :: replaceChild i c rest

/-- Modelled from the spec (§4.1 `Trie.insert`): walk / create nodes along the
token path, then append the `(word_id, unigram_score)` pair to the terminal
node's label set. -/
def insertNode {α : Type} (w : Nat) (s : α) : TrieNode α → List Nat → TrieNode α
  | n, [] => .mk (n.labels ++ [(w, s)]) n.maxScore n.children
  | n, i :: rest =>
    match findChild i n.children with
    | some c => .mk n.labels n.maxScore (replaceChild i (insertNode w s c rest) n.children)
    | none => .mk n.labels n.maxScore (n.children ++ [(i, insertNode w s (TrieNode.mk [] ⊥ []) rest)])

/-- Modelled from the spec (§4.1 `Trie.search`): pure exact-path lookup. -/
def searchNode {α : Type} : TrieNode α → List Nat → Option (TrieNode α)
  | n, [] => some n
  | n, i :: rest =>
    match findChild i n.children with
    | some c => searchNode c rest
    | none => none

/-- Modelled from the spec (§3 `Trie`): the arena owner is abstracted to its
root node plus the construction parameters `maxChildren` and `rootIdx`
(binding constructor `Trie(maxChildren, rootIdx)`). -/
structure Trie (α : Type) : Type where
  maxChildren : Nat
  rootIdx : Nat
  root : TrieNode α

/-- Modelled from the spec: the freshly constructed trie (root only). -/
def Trie.make (α : Type) (maxChildren rootIdx : Nat) : Trie α :=
  ⟨maxChildren, rootIdx, TrieNode.mk [] ⊥ []⟩

/-- Modelled from the spec (§4.1 `getRoot`): root node for decode
initialization. -/
def Trie.getRoot {α : Type} (t : Trie α) : TrieNode α := t.root

/-- Modelled from the spec (§4.1 `insert`): fails when the token sequence
contains an index `≥ maxChildren`; otherwise inserts along the path. -/
def Trie.insert {α : Type} (t : Trie α) (indices : List Nat) (label : Nat)
    (score : α) : Option (Trie α) :=
  if indices.all (fun i => i < t.maxChildren)
  then some { t with root := insertNode label score t.root indices }
  else none

/-- Modelled from the spec (§4.1 `search`): pure lookup, returning the result
together with the (unchanged) trie, in state-passing style. -/
def Trie.search {α : Type} (t : Trie α) (indices : List Nat) :
    Option (TrieNode α) × Trie α :=
  (searchNode t.root indices, t)

/-- Lift a binary score combination to `WithBot`, treating `⊥` (no score yet)
as the neutral element — this is the `-∞` initialisation of the smearing
accumulator described by the spec. -/
def liftComb {α : Type} (comb : α → α → α) (x y : WithBot α) : WithBot α :=
  match x, y with
  | none, y => y
  | some a, none => some a
  | some a, some b => some (comb a b)

/-- Modelled from the spec (§4.1 `smear`): bottom-up pass; each node's
`maxScore` combines the node's own label scores with the (already smeared)
children's `maxScore`s using the mode's combination `combW`. -/
def smearNode {α : Type} (combW : WithBot α → WithBot α → WithBot α) :
    TrieNode α → TrieNode α
  | .mk labels _ children =>
    let sc := children.attach.map (fun p => (p.1.1, smearNode combW p.1.2))
    .mk labels
      (((labels.map fun q => ((q.2 : α) : WithBot α)) ++
          sc.map (fun q => q.2.maxScore)).foldl combW ⊥)
      sc
termination_by t => sizeOf t
decreasing_by
  obtain ⟨⟨a, b⟩, hmem⟩ := p
  have h1 := List.sizeOf_lt_of_mem hmem
  simp only [Prod.mk.sizeOf_spec] at h1
  simp only [TrieNode.mk.sizeOf_spec]
  omega

/-- Modelled from the spec (§4.1 `smear(mode)`): NONE leaves `maxScore`
untouched, MAX combines with the order's `max`, LOGADD combines with the
supplied log-add routine `lse`. -/
def Trie.smear {α : Type} [LinearOrder α] (lse : α → α → α) (mode : SmearingMode)
    (t : Trie α) : Trie α :=
  match mode with
  | .NONE => t
  | .MAX => { t with root := smearNode (fun x y => max x y) t.root }
  | .LOGADD => { t with root := smearNode (liftComb lse) t.root }

/-- Unigram scores of all word labels attached anywhere in a node's subtree
(own labels first, then the children's subtrees in order). -/
def subtreeScores {α : Type} : TrieNode α → List α
  | .mk labels _ children =>
    labels.map (fun q => q.2) ++
      (children.attach.map (fun p => subtreeScores p.1.2)).flatten
termination_by t => sizeOf t
decreasing_by
  obtain ⟨⟨a, b⟩, hmem⟩ := p
  have h1 := List.sizeOf_lt_of_mem hmem
  simp only [Prod.mk.sizeOf_spec] at h1
  simp only [TrieNode.mk.sizeOf_spec]
  omega

/-- Reachability inside a trie: `Subnode t m` holds when `m` lies in the
subtree rooted at `t` (following child links). -/
inductive Subnode {α : Type} : TrieNode α → TrieNode α → Prop where
  | refl (t : TrieNode α) : Subnode t t
  | child (t : TrieNode α) (p : Nat × TrieNode α) (m : TrieNode α) :
      p ∈ t.children → Subnode p.2 m → Subnode t m

/-- Exact log-sum-exp of a list of log-domain scores (`⊥` for the empty
list) — the value the spec assigns to `maxScore` in LOGADD mode. -/
noncomputable def lseList (l : List ℝ) : WithBot ℝ :=
  if l = [] then ⊥ else ((Real.log ((l.map Real.exp).sum) : ℝ) : WithBot ℝ)

/-- The path `idxs` follows existing child links from `t` and ends at `m`. -/
inductive FollowsPath {α : Type} : TrieNode α → List Nat → TrieNode α → Prop where
  | nil (t : TrieNode α) : FollowsPath t [] t
  | cons (t : TrieNode α) (i : Nat) (c : TrieNode α) (rest : List Nat) (m : TrieNode α) :
      findChild i t.children = some c → FollowsPath c rest m → FollowsPath t (i :: rest) m

/-- Well-formedness of a node relative to the trie's `maxChildren` bound:
every child slot (recursively) uses a token index `< mc`. -/
inductive NodeWf {α : Type} (mc : Nat) : TrieNode α → Prop where
  | mk (labels : List (Nat × α)) (ms : WithBot α) (children : List (Nat × TrieNode α)) :
      (∀ p ∈ children, p.1 < mc) → (∀ p ∈ children, NodeWf mc p.2) →
      NodeWf mc (TrieNode.mk labels ms children)

/-- Modelled from the spec (§4.2): the language-model capability interface
over an abstract, opaque state type `S`. -/
structure LM (S : Type) : Type where
  start : Bool → S
  score : S → Nat → S × ℚ
  finish : S → S × ℚ
  compareState : S → S → Ordering

/-- Modelled from the spec (§4.2): `compareState` is a total-order comparator,
so comparison-equality is symmetric and transitive; the beam-merge invariants
rely only on this part of the contract. -/
def LM.LawfulCompare {S : Type} (lm : LM S) : Prop :=
  (∀ a b, lm.compareState a b = Ordering.eq → lm.compareState b a = Ordering.eq) ∧
  (∀ a b c, lm.compareState a b = Ordering.eq → lm.compareState b c = Ordering.eq →
    lm.compareState a c = Ordering.eq)

/-- Modelled from the spec: the `CriterionType` enum (bound at
`src/bindings/python/wav2letter/_decoder.cpp` lines 124-126). -/
inductive CriterionType : Type where
  | ASG
  | CTC
deriving DecidableEq

/-- Modelled from the spec (§3 `DecoderOptions`, binding lines 128-154):
immutable per-decode configuration bundle. -/
structure DecoderOptions : Type where
  beamSize : Nat
  beamThreshold : ℚ
  lmWeight : ℚ
  wordScore : ℚ
  unkScore : ℚ
  logAdd : Bool
  silWeight : ℚ
  criterionType : CriterionType

/-- Modelled from the spec (§3 `Hypothesis`): score, current trie position
(identified by its token path from the root, which is in bijection with the
arena node id), shared LM state, emitted word and token sequences (the
functional form of the back-pointer traceback). -/
structure Hyp (S : Type) : Type where
  score : ℚ
  path : List Nat
  lmState : S
  words : List Nat
  tokens : List Nat
deriving DecidableEq

/-- Modelled from the spec (§4.3, binding lines 163-178): the decoder bundle —
options, trie, LM, the silence / blank / unknown indices and transition
scores of the constructor, plus the numerically-stable log-add routine `lse`
(a float routine in the code, abstracted as a function parameter). -/
structure WordLMDecoder (S : Type) : Type where
  opts : DecoderOptions
  trie : Trie ℚ
  lm : LM S
  silIdx : Nat
  blankIdx : Nat
  unkIdx : Nat
  transitions : List ℚ
  lse : ℚ → ℚ → ℚ

/-- Children of the trie node a hypothesis currently sits on (root children
when the hypothesis is at a word boundary, i.e. its path is empty). -/
def childrenAt (t : Trie ℚ) (path : List Nat) : List (Nat × TrieNode ℚ) :=
  match searchNode t.root path with
  | some n => n.children
  | none => []

/-- Modelled from the spec (§4.3 `decodeStep`, candidate generation): expand a
hypothesis across all legal next tokens — exactly the trie children of its
current position.  Each transition yields the in-word continuation, one
word-emission per label of the reached node (LM-scored, `lmWeight`-scaled,
plus `wordScore`), and an `unkScore` substitute when the path can no longer
be completed to a known word; `silWeight` is added when the token is the
silence symbol. -/
def expandHyp {S : Type} (d : WordLMDecoder S) (row : List ℚ) (h : Hyp S) :
    List (Hyp S) :=
  (childrenAt d.trie h.path).flatMap (fun pc =>
    let tok := pc.1
    let child := pc.2
    let acoustic := row.getD tok 0
    let base := h.score + acoustic + (if tok = d.silIdx then d.opts.silWeight else 0)
    let contin : Hyp S :=
      { score := base, path := h.path ++ [tok], lmState := h.lmState,
        words := h.words, tokens := h.tokens ++ [tok] }
    let wordEmits : List (Hyp S) := child.labels.map (fun wl =>
      let ls := d.lm.score h.lmState wl.1
      { score := base + d.opts.lmWeight * ls.2 + d.opts.wordScore,
        path := [], lmState := ls.1, words := h.words ++ [wl.1],
        tokens := h.tokens ++ [tok] })
    let unkEmits : List (Hyp S) :=
      if child.labels.isEmpty && child.children.isEmpty then
        [{ score := base + d.opts.unkScore, path := [], lmState := h.lmState,
           words := h.words ++ [d.unkIdx], tokens := h.tokens ++ [tok] }]
      else []
    contin :: (wordEmits ++ unkEmits))

/-- Hypotheses are mergeable (beam dedup) when they share the trie node
(identified by its token path, which is in bijection with the node id) and
their LM states compare equal. -/
def Mergeable {S : Type} (d : WordLMDecoder S) (g h : Hyp S) : Prop :=
  g.path = h.path ∧ d.lm.compareState g.lmState h.lmState = Ordering.eq

/-- Modelled from the spec (§3 merge rule): the surviving hypothesis of a
merge — the higher-scoring one, its score replaced by the log-add of both
scores when the `logAdd` option is set. -/
def mergeHyp {S : Type} (d : WordLMDecoder S) (g h : Hyp S) : Hyp S :=
  let w := if g.score < h.score then h else g
  if d.opts.logAdd then { w with score := d.lse g.score h.score } else w

/-- Merge a candidate into an accumulator that holds at most one hypothesis
per (trie node, LM-state-equivalence-class) key. -/
def insertMerged {S : Type} (d : WordLMDecoder S) (h : Hyp S) :
    List (Hyp S) → List (Hyp S)
  | [] => [h]
  | g :: rest =>
    if g.path = h.path ∧ d.lm.compareState g.lmState h.lmState = Ordering.eq
    then mergeHyp d g h :: rest
    else g :: insertMerged d h rest

/-- Modelled from the spec (§4.3): merge all candidates of a frame, deduping
hypotheses that share the trie node and whose LM states compare equal. -/
def mergeCandidates {S : Type} (d : WordLMDecoder S) (cands : List (Hyp S)) :
    List (Hyp S) :=
  cands.foldl (fun acc h => insertMerged d h acc) []

/-- Modelled from the spec (§4.3): stable sort by descending score (ties keep
the canonical insertion order, making decoding deterministic). -/
def sortHyps {S : Type} (l : List (Hyp S)) : List (Hyp S) :=
  List.insertionSort (fun a b => b.score ≤ a.score) l

/-- Modelled from the spec (§4.3 `decodeStep`, one frame): expand every live
hypothesis, merge, discard candidates more than `beamThreshold` below the
best, and keep the top `beamSize` by score. -/
def stepFrame {S : Type} (d : WordLMDecoder S) (beam : List (Hyp S))
    (row : List ℚ) : List (Hyp S) :=
  let cands := beam.flatMap (expandHyp d row)
  let merged := mergeCandidates d cands
  let kept := merged.filter
    (fun h => merged.all (fun g => g.score - h.score ≤ d.opts.beamThreshold))
  (sortHyps kept).take d.opts.beamSize

/-- Modelled from the spec (§4.3 `decodeBegin`): reset the beam to a single
hypothesis seeded from the LM start state and the trie root, score 0. -/
def WordLMDecoder.decodeBegin {S : Type} (d : WordLMDecoder S) : List (Hyp S) :=
  [{ score := 0, path := [], lmState := d.lm.start false, words := [], tokens := [] }]

/-- Modelled from the spec (§4.3 `decodeStep`): process the `T` emission
frames in order (the raw `emissions` pointer plus `(T, N)` dimensions are
modelled as the list of the `T` rows). -/
def WordLMDecoder.decodeStep {S : Type} (d : WordLMDecoder S)
    (beam : List (Hyp S)) (frames : List (List ℚ)) : List (Hyp S) :=
  frames.foldl (stepFrame d) beam

/-- Modelled from the spec (§4.3 `decodeEnd`): apply the LM `finish` score to
one hypothesis. -/
def finishHyp {S : Type} (d : WordLMDecoder S) (h : Hyp S) : Hyp S :=
  let fs := d.lm.finish h.lmState
  { h with score := h.score + d.opts.lmWeight * fs.2, lmState := fs.1 }

/-- Modelled from the spec (§4.3 `decodeEnd`): call the LM's `finish` exactly
once per live hypothesis, add the incremental score, and rank. -/
def WordLMDecoder.decodeEnd {S : Type} (d : WordLMDecoder S)
    (beam : List (Hyp S)) : List (Hyp S) :=
  sortHyps (beam.map (finishHyp d))

/-- Modelled from the spec (§3 `DecodeResult`, binding lines 156-160): final
score, word sequence, token sequence. -/
structure DecodeResult : Type where
  score : ℚ
  words : List Nat
  tokens : List Nat
deriving DecidableEq

/-- Modelled from the spec (§4.4): the binding constructor
`DecodeResult(length)` pre-sizes the containers. -/
def DecodeResult.make (length : Nat) : DecodeResult :=
  ⟨0, List.replicate length 0, List.replicate length 0⟩

/-- Traceback of a finished hypothesis into the output record. -/
def DecodeResult.ofHyp {S : Type} (h : Hyp S) : DecodeResult :=
  ⟨h.score, h.words, h.tokens⟩

/-- Modelled from the spec (§4.3 `getAllFinalHypothesis`): all live/finalized
hypotheses as `DecodeResult`, sorted by descending score. -/
def getAllFinalHypothesis {S : Type} (beam : List (Hyp S)) : List DecodeResult :=
  (sortHyps beam).map DecodeResult.ofHyp

/-- Modelled from the spec (§4.3 `getBestHypothesis`): the single top-scoring
hypothesis. -/
def getBestHypothesis {S : Type} (beam : List (Hyp S)) : DecodeResult :=
  (getAllFinalHypothesis beam).headD ⟨0, [], []⟩

/-- Modelled from the spec (§4.3 `prune`): a memory-management operation on
the traceback history that alters neither scores nor the live beam. -/
def WordLMDecoder.prune {S : Type} (_d : WordLMDecoder S) (beam : List (Hyp S))
    (_lookBack : Nat) : List (Hyp S) :=
  beam

/-- Modelled from the spec (§4.3 `decode`): convenience composition of begin +
one `decodeStep` over all frames + end, returning all hypotheses sorted by
descending final score. -/
def WordLMDecoder.decode {S : Type} (d : WordLMDecoder S)
    (frames : List (List ℚ)) : List DecodeResult :=
  getAllFinalHypothesis (d.decodeEnd (d.decodeStep d.decodeBegin frames))

/-- State-passing form of `decode`: a decoder object holding a previous
internal beam `prev` runs a fresh decode (begin/step/end) and returns the
results together with its new internal state. -/
def WordLMDecoder.decodeM {S : Type} (d : WordLMDecoder S)
    (_prev : List (Hyp S)) (frames : List (List ℚ)) :
    List DecodeResult × List (Hyp S) :=
  let final := d.decodeEnd (d.decodeStep d.decodeBegin frames)
  (getAllFinalHypothesis final, final)

/-- Decoder states reachable inside the Decoding phase of the state machine:
`decodeBegin` followed by any sequence of `decodeStep` calls. -/
inductive Reachable {S : Type} (d : WordLMDecoder S) : List (Hyp S) → Prop where
  | begin : Reachable d d.decodeBegin
  | step (s : List (Hyp S)) (frames : List (List ℚ)) :
      Reachable d s → Reachable d (d.decodeStep s frames)

/-- The public operations of the decoder object, as an explicit alphabet
(used to state frame properties over whole call sequences). -/
inductive DecoderOp : Type where
  | opBegin
  | opStep (frames : List (List ℚ))
  | opEnd
  | opDecode (frames : List (List ℚ))
  | opPrune (lookBack : Nat)
  | opGetBest
  | opGetAllFinal

/-- A decoder session: the decoder's internal beam plus the log of every
`DecodeResult` handed to the caller so far. -/
structure DecoderSession (S : Type) : Type where
  beam : List (Hyp S)
  returned : List DecodeResult

/-- Operational model of one public call on the decoder object: result-
producing calls append to the `returned` log, the others only update the
internal beam. -/
def runOp {S : Type} (d : WordLMDecoder S) :
    DecoderOp → DecoderSession S → DecoderSession S
  | .opBegin, s => { s with beam := d.decodeBegin }
  | .opStep frames, s => { s with beam := d.decodeStep s.beam frames }
  | .opEnd, s => { s with beam := d.decodeEnd s.beam }
  | .opDecode frames, s =>
      { beam := d.decodeEnd (d.decodeStep d.decodeBegin frames),
        returned := s.returned ++ d.decode frames }
  | .opPrune n, s => { s with beam := d.prune s.beam n }
  | .opGetBest, s => { s with returned := s.returned ++ [getBestHypothesis s.beam] }
  | .opGetAllFinal, s => { s with returned := s.returned ++ getAllFinalHypothesis s.beam }

/-- Python-level view of a `TrieNode` as exposed by the binding
(`src/bindings/python/wav2letter/_decoder.cpp` lines 93-100): the six
attributes bound there; `children` holds handles (arena ids) of child
nodes. -/
structure PyTrieNode : Type where
  children : List Nat
  idx : Int
  nLabel : Int
  label : List Int
  score : List ℚ
  maxScore : ℚ
deriving DecidableEq

/-- One Python attribute assignment `node.<field> = v`, one constructor per
`def_readwrite` line of the binding (lines 95-100). -/
inductive TrieNodeAttr : Type where
  | children (v : List Nat)
  | idx (v : Int)
  | nLabel (v : Int)
  | label (v : List Int)
  | score (v : List ℚ)
  | maxScore (v : ℚ)
deriving DecidableEq

/-- Semantics of `def_readwrite` assignment: every one of the six exposed
attributes can be written, unconditionally. -/
def setAttr (n : PyTrieNode) : TrieNodeAttr → PyTrieNode
  | .children v => { n with children := v }
  | .idx v => { n with idx := v }
  | .nLabel v => { n with nLabel := v }
  | .label v => { n with label := v }
  | .score v => { n with score := v }
  | .maxScore v => { n with maxScore := v }

/-- The owning trie's node arena, as shared with the Python handles. -/
structure PyTrieArena : Type where
  nodes : List PyTrieNode
deriving DecidableEq

/-- Attribute assignment through a node handle `i` writes straight into the
owning trie's arena (the node is shared, not copied). -/
def writeAttr (w : PyTrieArena) (i : Nat) (a : TrieNodeAttr) : PyTrieArena :=
  match w.nodes.get? i with
  | some n => ⟨w.nodes.set i (setAttr n a)⟩
  | none => w

/-- A trivial, lawful language model over the unit state (used for concrete
evaluations). -/
def unitLM : LM Unit :=
  ⟨fun _ => (), fun _ _ => ((), 0), fun _ => ((), 0), fun _ _ => Ordering.eq⟩

/-- A small concrete lexicon trie over a 3-token alphabet: word 7 at path [0]
(unigram score 5) and word 8 at path [0,1] (score 2). -/
def demoTrie : Trie ℚ :=
  ⟨3, 2, TrieNode.mk [] ⊥
    [(0, TrieNode.mk [(7, 5)] ⊥ [(1, TrieNode.mk [(8, 2)] ⊥ [])])]⟩

/-- Concrete decoder options (beam 2, wide threshold, max merging). -/
def demoOptions : DecoderOptions :=
  ⟨2, 100, 1, 0, 0, false, 0, CriterionType.CTC⟩

/-- Concrete decoder over the unit LM and `demoTrie`. -/
def demoDecoder : WordLMDecoder Unit :=
  ⟨demoOptions, demoTrie, unitLM, 2, 2, 9, [], fun a b => max a b⟩

/-- The same decoder with a degenerate beam width of 0. -/
def demoDecoder0 : WordLMDecoder Unit :=
  { demoDecoder with opts := { demoOptions with beamSize := 0 } }

/-- The same concrete lexicon trie with real-valued scores (for the LOGADD
smearing statement). -/
def demoTrieR : Trie ℝ :=
  ⟨3, 2, TrieNode.mk [] ⊥
    [(0, TrieNode.mk [(7, 5)] ⊥ [(1, TrieNode.mk [(8, 2)] ⊥ [])])]⟩

/-! ## Theorems -/

theorem TrieNode.sizeOf_child_lt {α : Type} [SizeOf α] {labels : List (Nat × α)}
    {ms : WithBot α} {children : List (Nat × TrieNode α)} {p : Nat × TrieNode α}
    (h : p ∈ children) : sizeOf p.2 < sizeOf (TrieNode.mk labels ms children) := by
  have h1 := List.sizeOf_lt_of_mem h
  have h2 : sizeOf p.2 < sizeOf p := by
    cases p with
    | mk a b => simp
  simp only [TrieNode.mk.sizeOf_spec]
  omega

/-- Strong induction principle for `TrieNode` (descend into the child list). -/
theorem TrieNode.ind {α : Type} (P : TrieNode α → Prop)
    (h : ∀ labels ms children,
      (∀ p ∈ children, P p.2) → P (TrieNode.mk labels ms children)) :
    ∀ t, P t := by
  have key : ∀ (n : Nat) (t : TrieNode α), sizeOf t ≤ n → P t := by
    intro n
    induction n with
    | zero =>
      intro t ht
      cases t with
      | mk labels ms children =>
        simp only [TrieNode.mk.sizeOf_spec] at ht
        omega
    | succ n ih =>
      intro t ht
      cases t with
      | mk labels ms children =>
        apply h
        intro p hp
        apply ih
        have := @TrieNode.sizeOf_child_lt α _ labels ms children p hp
        omega
  intro t
  exact key (sizeOf t) t le_rfl

theorem smearNode_mk {α : Type} (combW : WithBot α → WithBot α → WithBot α)
    (labels : List (Nat × α)) (ms : WithBot α) (children : List (Nat × TrieNode α)) :
    smearNode combW (TrieNode.mk labels ms children) =
      TrieNode.mk labels
        (((labels.map fun q => ((q.2 : α) : WithBot α)) ++
            children.map (fun q => (smearNode combW q.2).maxScore)).foldl combW ⊥)
        (children.map (fun p => (p.1, smearNode combW p.2))) := by
  have h1 : children.attach.map (fun p => (p.1.1, smearNode combW p.1.2)) =
      children.map (fun p => (p.1, smearNode combW p.2)) := by
    rw [List.map_attach]
    simp
  rw [smearNode]
  show TrieNode.mk labels _ _ = _
  rw [h1, List.map_map]
  rfl

theorem subtreeScores_mk {α : Type} (labels : List (Nat × α)) (ms : WithBot α)
    (children : List (Nat × TrieNode α)) :
    subtreeScores (TrieNode.mk labels ms children) =
      labels.map (fun q => q.2) ++ (children.map (fun p => subtreeScores p.2)).flatten := by
  have h1 : children.attach.map (fun p => subtreeScores p.1.2) =
      children.map (fun p => subtreeScores p.2) := by
    rw [List.map_attach]
    simp
  rw [subtreeScores, h1]

theorem labels_smearNode {α : Type} (combW : WithBot α → WithBot α → WithBot α)
    (t : TrieNode α) : (smearNode combW t).labels = t.labels := by
  cases t with
  | mk labels ms children => rw [smearNode_mk]; rfl

theorem children_smearNode {α : Type} (combW : WithBot α → WithBot α → WithBot α)
    (t : TrieNode α) :
    (smearNode combW t).children = t.children.map (fun p => (p.1, smearNode combW p.2)) := by
  cases t with
  | mk labels ms children => rw [smearNode_mk]; rfl

theorem subtreeScores_smearNode {α : Type} (combW : WithBot α → WithBot α → WithBot α)
    (t : TrieNode α) : subtreeScores (smearNode combW t) = subtreeScores t := by
  induction t using TrieNode.ind with
  | _ labels ms children ih =>
    rw [smearNode_mk, subtreeScores_mk, subtreeScores_mk]
    congr 1
    rw [List.map_map]
    congr 1
    apply List.map_eq_map_iff.mpr
    intro p hp
    exact ih p hp

/-- Fold of a combination `combW` over summaries `F` of lists concatenates the
lists, provided `combW` is a homomorphism for `F` along `++`. -/
theorem foldl_comb_hom {α : Type} (combW : WithBot α → WithBot α → WithBot α)
    (F : List α → WithBot α)
    (happ : ∀ A B, combW (F A) (F B) = F (A ++ B)) :
    ∀ (parts : List (List α)) (acc : List α),
      (parts.map F).foldl combW (F acc) = F (acc ++ parts.flatten) := by
  intro parts
  induction parts with
  | nil => intro acc; simp
  | cons p ps ih =>
    intro acc
    simp only [List.map_cons, List.foldl_cons, List.flatten_cons]
    rw [happ, ih, List.append_assoc]

/-- Core smearing theorem: when `F` summarises a score list, `F [] = ⊥`,
`F [s] = ↑s`, and `combW` is the `++`-homomorphic combination for `F`, the
bottom-up smearing pass computes `F` of the flattened subtree label scores at
every node. -/
theorem smearNode_maxScore_hom {α : Type} (combW : WithBot α → WithBot α → WithBot α)
    (F : List α → WithBot α)
    (hnil : F [] = ⊥) (hsingle : ∀ s : α, F [s] = (s : WithBot α))
    (happ : ∀ A B, combW (F A) (F B) = F (A ++ B)) :
    ∀ t : TrieNode α, (smearNode combW t).maxScore = F (subtreeScores t) := by
  intro t
  induction t using TrieNode.ind with
  | _ labels ms children ih =>
    rw [smearNode_mk, subtreeScores_mk]
    show ((labels.map fun q => ((q.2 : α) : WithBot α)) ++
        children.map (fun q => (smearNode combW q.2).maxScore)).foldl combW ⊥ = _
    have h1 : (labels.map fun q => ((q.2 : α) : WithBot α)) =
        ((labels.map fun q => [q.2]).map F) := by
      rw [List.map_map]
      apply List.map_eq_map_iff.mpr
      intro q _
      exact (hsingle q.2).symm
    have h2 : children.map (fun q => (smearNode combW q.2).maxScore) =
        ((children.map fun q => subtreeScores q.2).map F) := by
      rw [List.map_map]
      apply List.map_eq_map_iff.mpr
      intro q hq
      exact ih q hq
    rw [h1, h2, ← List.map_append, ← hnil]
    rw [foldl_comb_hom combW F happ]
    rw [List.nil_append, List.flatten_append]
    congr 1
    induction labels with
    | nil => rfl
    | cons a t iht => simp_all

/-- Every node of a smeared tree is the smearing of a node of the original
tree. -/
theorem subnode_smearNode {α : Type} (combW : WithBot α → WithBot α → WithBot α)
    {s m : TrieNode α} (h : Subnode s m) :
    ∀ t, s = smearNode combW t → ∃ m0, Subnode t m0 ∧ m = smearNode combW m0 := by
  induction h with
  | refl s =>
    intro t ht
    exact ⟨t, Subnode.refl t, ht⟩
  | child s p m hp hsub ih =>
    intro t ht
    subst ht
    rw [children_smearNode] at hp
    obtain ⟨q, hq, hpq⟩ := List.mem_map.mp hp
    obtain ⟨m0, hm0, hm⟩ := ih q.2 (by rw [← hpq])
    exact ⟨m0, Subnode.child t q m0 hq hm0, hm⟩

theorem maximum_append {α : Type} [LinearOrder α] (A B : List α) :
    (A ++ B).maximum = max A.maximum B.maximum := by
  induction A with
  | nil => simp [List.maximum_nil]
  | cons a t ih => simp [List.maximum_cons, ih, max_assoc]

theorem smear_MAX_maxScore {α : Type} [LinearOrder α] (t : TrieNode α) :
    (smearNode (fun x y => max x y) t).maxScore = (subtreeScores t).maximum :=
  smearNode_maxScore_hom _ List.maximum (by simp) (fun _ => rfl)
    (fun A B => (maximum_append A B).symm) t

theorem sum_map_exp_pos (l : List ℝ) (h : l ≠ []) : 0 < (l.map Real.exp).sum := by
  cases l with
  | nil => exact absurd rfl h
  | cons a t =>
    simp only [List.map_cons, List.sum_cons]
    have h1 : (0 : ℝ) ≤ (t.map Real.exp).sum := by
      apply List.sum_nonneg
      intro x hx
      obtain ⟨y, _, rfl⟩ := List.mem_map.mp hx
      exact le_of_lt (Real.exp_pos y)
    have h2 := Real.exp_pos a
    linarith

theorem lseList_nil : lseList [] = ⊥ := by
  simp [lseList]

theorem lseList_single (s : ℝ) : lseList [s] = (s : WithBot ℝ) := by
  simp [lseList, Real.log_exp]

theorem lseList_append (A B : List ℝ) :
    liftComb (fun a b => Real.log (Real.exp a + Real.exp b)) (lseList A) (lseList B) =
      lseList (A ++ B) := by
  rcases eq_or_ne A [] with hA | hA
  · subst hA
    simp [lseList, liftComb]
  rcases eq_or_ne B [] with hB | hB
  · subst hB
    simp [lseList, liftComb, hA]
    rfl
  · have hA2 : lseList A = ((Real.log ((A.map Real.exp).sum) : ℝ) : WithBot ℝ) := by
      simp [lseList, hA]
    have hB2 : lseList B = ((Real.log ((B.map Real.exp).sum) : ℝ) : WithBot ℝ) := by
      simp [lseList, hB]
    have hAB : A ++ B ≠ [] := by simp [hA]
    rw [hA2, hB2]
    have hstep : liftComb (fun a b => Real.log (Real.exp a + Real.exp b))
        ((Real.log ((A.map Real.exp).sum) : ℝ) : WithBot ℝ)
        ((Real.log ((B.map Real.exp).sum) : ℝ) : WithBot ℝ) =
        ((Real.log (Real.exp (Real.log ((A.map Real.exp).sum)) +
            Real.exp (Real.log ((B.map Real.exp).sum))) : ℝ) : WithBot ℝ) := rfl
    rw [hstep, Real.exp_log (sum_map_exp_pos A hA), Real.exp_log (sum_map_exp_pos B hB)]
    simp [lseList, hAB, List.sum_append]

theorem smear_LOGADD_maxScore (t : TrieNode ℝ) :
    (smearNode (liftComb (fun a b => Real.log (Real.exp a + Real.exp b))) t).maxScore =
      lseList (subtreeScores t) :=
  smearNode_maxScore_hom _ lseList lseList_nil lseList_single lseList_append t

/-- C1: after `smear(MAX)` on any trie, every reachable node's `maxScore`
equals the maximum unigram score over all word labels attached in that node's
subtree; after `smear(LOGADD)` with the exact log-add, every reachable node's
`maxScore` equals the log-sum-exp of those same label scores. -/
theorem c1_smear_correct {α : Type} [LinearOrder α] (lse : α → α → α)
    (t : Trie α) (tr : Trie ℝ) :
    (∀ m, Subnode (Trie.smear lse SmearingMode.MAX t).root m →
      m.maxScore = (subtreeScores m).maximum) ∧
    (∀ m, Subnode (Trie.smear (fun a b => Real.log (Real.exp a + Real.exp b))
        SmearingMode.LOGADD tr).root m →
      m.maxScore = lseList (subtreeScores m)) := by
  constructor
  · intro m hm
    have hroot : (Trie.smear lse SmearingMode.MAX t).root =
        smearNode (fun x y => max x y) t.root := rfl
    rw [hroot] at hm
    obtain ⟨m0, _, rfl⟩ := subnode_smearNode _ hm t.root rfl
    rw [smear_MAX_maxScore, subtreeScores_smearNode]
  · intro m hm
    have hroot : (Trie.smear (fun a b => Real.log (Real.exp a + Real.exp b))
        SmearingMode.LOGADD tr).root =
        smearNode (liftComb (fun a b => Real.log (Real.exp a + Real.exp b))) tr.root := rfl
    rw [hroot] at hm
    obtain ⟨m0, _, rfl⟩ := subnode_smearNode _ hm tr.root rfl
    rw [smear_LOGADD_maxScore, subtreeScores_smearNode]

/-- C1 witness: the theorem applied to the concrete demo tries at their roots;
the MAX value additionally evaluates to the concrete maximum 5. -/
theorem c1_smear_correct_witness :
    ((Trie.smear (fun a b : ℚ => max a b) SmearingMode.MAX demoTrie).root.maxScore =
      (subtreeScores (Trie.smear (fun a b : ℚ => max a b) SmearingMode.MAX demoTrie).root).maximum) ∧
    ((Trie.smear (fun a b : ℚ => max a b) SmearingMode.MAX demoTrie).root.maxScore =
      ((5 : ℚ) : WithBot ℚ)) ∧
    ((Trie.smear (fun a b => Real.log (Real.exp a + Real.exp b))
        SmearingMode.LOGADD demoTrieR).root.maxScore =
      lseList (subtreeScores (Trie.smear (fun a b => Real.log (Real.exp a + Real.exp b))
        SmearingMode.LOGADD demoTrieR).root)) :=
  ⟨(c1_smear_correct (fun a b : ℚ => max a b) demoTrie demoTrieR).1 _ (Subnode.refl _),
   by
    have h1 : (Trie.smear (fun a b : ℚ => max a b) SmearingMode.MAX demoTrie).root.maxScore =
        (subtreeScores demoTrie.root).maximum := by
      have h0 := smear_MAX_maxScore (α := ℚ) demoTrie.root
      rw [← subtreeScores_smearNode (fun x y => max x y) demoTrie.root] at h0
      rw [subtreeScores_smearNode] at h0
      exact h0
    rw [h1]
    have h2 : subtreeScores demoTrie.root = [5, 2] := by
      show subtreeScores (TrieNode.mk [] ⊥
        [(0, TrieNode.mk [(7, 5)] ⊥ [(1, TrieNode.mk [(8, 2)] ⊥ [])])]) = [(5 : ℚ), 2]
      simp [subtreeScores_mk]
    rw [h2]
    decide,
   (c1_smear_correct (fun a b : ℚ => max a b) demoTrie demoTrieR).2 _ (Subnode.refl _)⟩

theorem smearNode_idem {α : Type} (combW : WithBot α → WithBot α → WithBot α)
    (t : TrieNode α) : smearNode combW (smearNode combW t) = smearNode combW t := by
  induction t using TrieNode.ind with
  | _ labels ms children ih =>
    conv_lhs => rw [smearNode_mk combW labels ms children]
    conv_lhs => rw [smearNode_mk]
    conv_rhs => rw [smearNode_mk combW labels ms children]
    have hc : (children.map (fun p => (p.1, smearNode combW p.2))).map
        (fun p => (p.1, smearNode combW p.2)) =
        children.map (fun p => (p.1, smearNode combW p.2)) := by
      rw [List.map_map]
      apply List.map_eq_map_iff.mpr
      intro p hp
      simp [Function.comp, ih p hp]
    have hm : (children.map (fun p => (p.1, smearNode combW p.2))).map
        (fun q => (smearNode combW q.2).maxScore) =
        children.map (fun q => (smearNode combW q.2).maxScore) := by
      rw [List.map_map]
      apply List.map_eq_map_iff.mpr
      intro p hp
      simp [Function.comp, ih p hp]
    rw [hc, hm]

/-- C6: re-running `smear` with the same mode (any mode, any log-add routine)
leaves the whole trie — every node's `maxScore`, labels and children —
unchanged. -/
theorem c6_smear_idempotent {α : Type} [LinearOrder α] (lse : α → α → α)
    (mode : SmearingMode) (t : Trie α) :
    Trie.smear lse mode (Trie.smear lse mode t) = Trie.smear lse mode t := by
  cases mode with
  | NONE => rfl
  | MAX => simp [Trie.smear, smearNode_idem]
  | LOGADD => simp [Trie.smear, smearNode_idem]

theorem searchNode_iff {α : Type} : ∀ (idxs : List Nat) (t m : TrieNode α),
    searchNode t idxs = some m ↔ FollowsPath t idxs m := by
  intro idxs
  induction idxs with
  | nil =>
    intro t m
    constructor
    · intro h
      rw [searchNode] at h
      rw [← Option.some_inj.mp h]
      exact FollowsPath.nil t
    · intro h
      cases h
      rfl
  | cons i rest ih =>
    intro t m
    constructor
    · intro h
      rw [searchNode] at h
      cases hfc : findChild i t.children with
      | none => rw [hfc] at h; exact absurd h (by simp)
      | some c =>
        rw [hfc] at h
        exact FollowsPath.cons t i c rest m hfc ((ih c m).mp h)
    · intro h
      cases h with
      | cons _ _ c _ _ hfc hfp =>
        rw [searchNode, hfc]
        exact (ih c m).mpr hfp

/-- C7: `search` is a pure lookup — the trie is unchanged; the result is
`some m` exactly when every prefix of the index sequence follows existing
child links from the root, ending at `m`; otherwise the result is `none`. -/
theorem c7_search_correct {α : Type} (t : Trie α) (idxs : List Nat) :
    (Trie.search t idxs).2 = t ∧
    (∀ m, (Trie.search t idxs).1 = some m ↔ FollowsPath t.root idxs m) ∧
    ((¬ ∃ m, FollowsPath t.root idxs m) → (Trie.search t idxs).1 = none) := by
  refine ⟨rfl, fun m => searchNode_iff idxs t.root m, ?_⟩
  intro hn
  cases hs : searchNode t.root idxs with
  | none => exact hs
  | some m => exact absurd ⟨m, (searchNode_iff idxs t.root m).mp hs⟩ hn

/-- C7 witness: on the concrete demo trie, the path [0] is found (yielding the
"a" node) and the dead path [0, 0] yields `none` — and the trie component of
the result is untouched. -/
theorem c7_search_correct_witness :
    FollowsPath demoTrie.root [0]
      (TrieNode.mk [(7, 5)] ⊥ [(1, TrieNode.mk [(8, 2)] ⊥ [])]) ∧
    (Trie.search demoTrie [0, 0]).1 = none ∧
    (Trie.search demoTrie [0]).2 = demoTrie := by
  refine ⟨((c7_search_correct demoTrie [0]).2.1 _).mp rfl, ?_, (c7_search_correct demoTrie [0]).1⟩
  apply (c7_search_correct demoTrie [0, 0]).2.2
  rintro ⟨m, hm⟩
  have hs := (searchNode_iff [0, 0] demoTrie.root m).mpr hm
  rw [show searchNode demoTrie.root [0, 0] = (none : Option (TrieNode ℚ)) from rfl] at hs
  exact Option.noConfusion hs

theorem findChild_mem {α : Type} (i : Nat) (l : List (Nat × TrieNode α)) (c : TrieNode α)
    (h : findChild i l = some c) : (i, c) ∈ l := by
  induction l with
  | nil => exact absurd h (by simp [findChild])
  | cons p rest ih =>
    rw [findChild] at h
    by_cases hp : p.1 = i
    · rw [if_pos hp] at h
      have hc := Option.some_inj.mp h
      subst hp
      subst hc
      simp
    · rw [if_neg hp] at h
      exact List.mem_cons_of_mem p (ih h)

theorem NodeWf.lookup {α : Type} {mc : Nat} {t : TrieNode α} (h : NodeWf mc t) :
    (∀ p ∈ t.children, p.1 < mc) ∧ (∀ p ∈ t.children, NodeWf mc p.2) := by
  cases h with
  | mk labels ms children h1 h2 => exact ⟨h1, h2⟩

theorem searchNode_wf {α : Type} {mc : Nat} : ∀ (idxs : List Nat) (t m : TrieNode α),
    NodeWf mc t → searchNode t idxs = some m → NodeWf mc m := by
  intro idxs
  induction idxs with
  | nil =>
    intro t m ht h
    rw [searchNode] at h
    rw [← Option.some_inj.mp h]
    exact ht
  | cons i rest ih =>
    intro t m ht h
    rw [searchNode] at h
    cases hfc : findChild i t.children with
    | none => rw [hfc] at h; exact absurd h (by simp)
    | some c =>
      rw [hfc] at h
      exact ih c m ((NodeWf.lookup ht).2 _ (findChild_mem i _ c hfc)) h

theorem mem_replaceChild {α : Type} {i : Nat} {c : TrieNode α}
    {l : List (Nat × TrieNode α)} {p : Nat × TrieNode α}
    (h : p ∈ replaceChild i c l) : p = (i, c) ∨ p ∈ l := by
  induction l with
  | nil => exact absurd h (by simp [replaceChild])
  | cons q rest ih =>
    rw [replaceChild] at h
    by_cases hq : q.1 = i
    · rw [if_pos hq] at h
      rcases List.mem_cons.mp h with h1 | h1
      · exact Or.inl h1
      · exact Or.inr (List.mem_cons_of_mem q h1)
    · rw [if_neg hq] at h
      rcases List.mem_cons.mp h with h1 | h1
      · exact Or.inr (h1 ▸ List.mem_cons_self q rest)
      · rcases ih h1 with h2 | h2
        · exact Or.inl h2
        · exact Or.inr (List.mem_cons_of_mem q h2)

theorem insertNode_wf {α : Type} {mc : Nat} (w : Nat) (s : α) :
    ∀ (idxs : List Nat) (t : TrieNode α), NodeWf mc t → (∀ i ∈ idxs, i < mc) →
    NodeWf mc (insertNode w s t idxs) := by
  intro idxs
  induction idxs with
  | nil =>
    intro t ht _
    cases ht with
    | mk labels ms children h1 h2 =>
      rw [insertNode]
      exact NodeWf.mk _ _ _ h1 h2
  | cons i rest ih =>
    intro t ht hall
    rw [insertNode]
    cases hfc : findChild i t.children with
    | some c =>
      apply NodeWf.mk
      · intro p hp
        rcases mem_replaceChild hp with h1 | h1
        · rw [h1]; exact hall i (List.mem_cons_self i rest)
        · exact (NodeWf.lookup ht).1 p h1
      · intro p hp
        rcases mem_replaceChild hp with h1 | h1
        · rw [h1]
          exact ih c ((NodeWf.lookup ht).2 _ (findChild_mem i _ c hfc))
            (fun j hj => hall j (List.mem_cons_of_mem i hj))
        · exact (NodeWf.lookup ht).2 p h1
    | none =>
      apply NodeWf.mk
      · intro p hp
        rcases List.mem_append.mp hp with h1 | h1
        · exact (NodeWf.lookup ht).1 p h1
        · have h2 : p = (i, insertNode w s (TrieNode.mk [] ⊥ []) rest) := by
            simpa using h1
          rw [h2]
          exact hall i (List.mem_cons_self i rest)
      · intro p hp
        rcases List.mem_append.mp hp with h1 | h1
        · exact (NodeWf.lookup ht).2 p h1
        · have h2 : p = (i, insertNode w s (TrieNode.mk [] ⊥ []) rest) := by
            simpa using h1
          rw [h2]
          exact ih _ (NodeWf.mk [] ⊥ [] (by simp) (by simp))
            (fun j hj => hall j (List.mem_cons_of_mem i hj))

theorem childrenAt_lt (t : Trie ℚ) (path : List Nat)
    (hwf : NodeWf t.maxChildren t.root) :
    ∀ p ∈ childrenAt t path, p.1 < t.maxChildren := by
  intro p hp
  rw [childrenAt] at hp
  cases hs : searchNode t.root path with
  | none =>
    rw [hs] at hp
    exact absurd hp (List.not_mem_nil p)
  | some n =>
    rw [hs] at hp
    exact (NodeWf.lookup (searchNode_wf path t.root n hwf hs)).1 p hp

theorem mem_expandHyp {S : Type} (d : WordLMDecoder S) (row : List ℚ) (h : Hyp S)
    {h2 : Hyp S} (hmem : h2 ∈ expandHyp d row h) :
    ∃ pc ∈ childrenAt d.trie h.path, h2.tokens = h.tokens ++ [pc.1] := by
  rw [expandHyp] at hmem
  obtain ⟨pc, hpc, hin⟩ := List.mem_flatMap.mp hmem
  refine ⟨pc, hpc, ?_⟩
  simp only [List.mem_cons, List.mem_append, List.mem_map] at hin
  rcases hin with h1 | ⟨wl, hwl, h1⟩ | h1
  · rw [h1]
  · rw [← h1]
  · split at h1
    · simp only [List.mem_singleton] at h1
      rw [h1]
    · exact absurd h1 (List.not_mem_nil h2)

theorem mergeHyp_shape {S : Type} (d : WordLMDecoder S) (g h : Hyp S) :
    ∃ w, (w = g ∨ w = h) ∧ mergeHyp d g h = { w with score := (mergeHyp d g h).score } := by
  refine ⟨if g.score < h.score then h else g, ?_, ?_⟩
  · by_cases hlt : g.score < h.score
    · rw [if_pos hlt]
      exact Or.inr rfl
    · rw [if_neg hlt]
      exact Or.inl rfl
  · by_cases hl : d.opts.logAdd <;> simp [mergeHyp, hl]

theorem mem_insertMerged {S : Type} (d : WordLMDecoder S) (h : Hyp S) :
    ∀ (acc : List (Hyp S)) (x : Hyp S), x ∈ insertMerged d h acc →
    x ∈ acc ∨ x = h ∨ ∃ g ∈ acc, Mergeable d g h ∧ x = mergeHyp d g h := by
  intro acc
  induction acc with
  | nil =>
    intro x hx
    rw [insertMerged] at hx
    exact Or.inr (Or.inl (by simpa using hx))
  | cons g rest ih =>
    intro x hx
    rw [insertMerged] at hx
    by_cases hc : (g.path = h.path ∧ d.lm.compareState g.lmState h.lmState = Ordering.eq)
    · rw [if_pos hc] at hx
      rcases List.mem_cons.mp hx with h1 | h1
      · exact Or.inr (Or.inr ⟨g, List.mem_cons_self g rest, hc, h1⟩)
      · exact Or.inl (List.mem_cons_of_mem g h1)
    · rw [if_neg hc] at hx
      rcases List.mem_cons.mp hx with h1 | h1
      · exact Or.inl (h1 ▸ List.mem_cons_self g rest)
      · rcases ih x h1 with h2 | h2 | ⟨g2, hg2, hm2, h3⟩
        · exact Or.inl (List.mem_cons_of_mem g h2)
        · exact Or.inr (Or.inl h2)
        · exact Or.inr (Or.inr ⟨g2, List.mem_cons_of_mem g hg2, hm2, h3⟩)

theorem mergeCandidates_pres {S : Type} (d : WordLMDecoder S) (P : Hyp S → Prop)
    (hP : ∀ g h, P g → P h → P (mergeHyp d g h))
    (cands : List (Hyp S)) (hc : ∀ c ∈ cands, P c) :
    ∀ x ∈ mergeCandidates d cands, P x := by
  have key : ∀ (l acc : List (Hyp S)), (∀ c ∈ l, P c) → (∀ a ∈ acc, P a) →
      ∀ x ∈ l.foldl (fun acc2 h => insertMerged d h acc2) acc, P x := by
    intro l
    induction l with
    | nil =>
      intro acc _ hacc x hx
      exact hacc x hx
    | cons c rest ih =>
      intro acc hc2 hacc x hx
      rw [List.foldl_cons] at hx
      refine ih (insertMerged d c acc) (fun y hy => hc2 y (List.mem_cons_of_mem c hy)) ?_ x hx
      intro a ha
      rcases mem_insertMerged d c acc a ha with h1 | h1 | ⟨g, hg, _, h2⟩
      · exact hacc a h1
      · exact h1 ▸ hc2 c (List.mem_cons_self c rest)
      · exact h2 ▸ hP g c (hacc g hg) (hc2 c (List.mem_cons_self c rest))
  exact key cands [] hc (by simp)

theorem mem_stepFrame {S : Type} (d : WordLMDecoder S) (beam : List (Hyp S))
    (row : List ℚ) {x : Hyp S} (hx : x ∈ stepFrame d beam row) :
    x ∈ mergeCandidates d (beam.flatMap (expandHyp d row)) := by
  have he : stepFrame d beam row =
      (sortHyps ((mergeCandidates d (beam.flatMap (expandHyp d row))).filter
        (fun h => (mergeCandidates d (beam.flatMap (expandHyp d row))).all
          (fun g => g.score - h.score ≤ d.opts.beamThreshold)))).take d.opts.beamSize := rfl
  rw [he] at hx
  have h1 := List.mem_of_mem_take hx
  have h2 := ((List.perm_insertionSort _ _).mem_iff).mp h1
  exact List.mem_of_mem_filter h2

theorem stepFrame_length {S : Type} (d : WordLMDecoder S) (beam : List (Hyp S))
    (row : List ℚ) : (stepFrame d beam row).length ≤ d.opts.beamSize := by
  have he : (stepFrame d beam row).length =
      ((sortHyps ((mergeCandidates d (beam.flatMap (expandHyp d row))).filter
        (fun h => (mergeCandidates d (beam.flatMap (expandHyp d row))).all
          (fun g => g.score - h.score ≤ d.opts.beamThreshold)))).take d.opts.beamSize).length := rfl
  rw [he, List.length_take]
  omega

theorem decodeStep_le {S : Type} (d : WordLMDecoder S) :
    ∀ (frames : List (List ℚ)) (beam : List (Hyp S)),
      beam.length ≤ d.opts.beamSize →
      (d.decodeStep beam frames).length ≤ d.opts.beamSize := by
  intro frames
  induction frames with
  | nil =>
    intro beam h
    exact h
  | cons row rest ih =>
    intro beam _
    exact ih (stepFrame d beam row) (stepFrame_length d beam row)

theorem reachable_le {S : Type} (d : WordLMDecoder S) (hbs : 1 ≤ d.opts.beamSize)
    {s : List (Hyp S)} (hr : Reachable d s) : s.length ≤ d.opts.beamSize := by
  induction hr with
  | begin => exact hbs
  | step s frames _ ih => exact decodeStep_le d frames s ih

theorem mergeable_mergeHyp {S : Type} (d : WordLMDecoder S) {g h f : Hyp S}
    (hm : Mergeable d f (mergeHyp d g h)) : Mergeable d f g ∨ Mergeable d f h := by
  obtain ⟨w, hw, hshape⟩ := mergeHyp_shape d g h
  rw [Mergeable, hshape] at hm
  rcases hw with rfl | rfl
  · exact Or.inl hm
  · exact Or.inr hm

theorem mergeable_mergeHyp_left {S : Type} (d : WordLMDecoder S) {g h f : Hyp S}
    (hm : Mergeable d (mergeHyp d g h) f) : Mergeable d g f ∨ Mergeable d h f := by
  obtain ⟨w, hw, hshape⟩ := mergeHyp_shape d g h
  rw [Mergeable, hshape] at hm
  rcases hw with rfl | rfl
  · exact Or.inl hm
  · exact Or.inr hm

theorem insertMerged_pairwise {S : Type} (d : WordLMDecoder S)
    (hlaw : d.lm.LawfulCompare) (h : Hyp S) :
    ∀ (acc : List (Hyp S)), acc.Pairwise (fun a b => ¬ Mergeable d a b) →
    (insertMerged d h acc).Pairwise (fun a b => ¬ Mergeable d a b) := by
  intro acc
  induction acc with
  | nil =>
    intro _
    rw [insertMerged]
    exact List.pairwise_singleton _ h
  | cons g rest ih =>
    intro hp
    rw [insertMerged]
    have hp1 := List.pairwise_cons.mp hp
    by_cases hc : (g.path = h.path ∧ d.lm.compareState g.lmState h.lmState = Ordering.eq)
    · rw [if_pos hc]
      apply List.pairwise_cons.mpr
      refine ⟨?_, hp1.2⟩
      intro f hf hmf
      rcases mergeable_mergeHyp_left d hmf with h1 | h1
      · exact hp1.1 f hf h1
      · exact hp1.1 f hf ⟨hc.1.trans h1.1, hlaw.2 _ _ _ hc.2 h1.2⟩
    · rw [if_neg hc]
      apply List.pairwise_cons.mpr
      refine ⟨?_, ih hp1.2⟩
      intro f hf hmf
      rcases mem_insertMerged d h rest f hf with h1 | h1 | ⟨g2, hg2, _, h2⟩
      · exact hp1.1 f h1 hmf
      · exact hc (h1 ▸ hmf)
      · subst h2
        rcases mergeable_mergeHyp d hmf with h3 | h3
        · exact hp1.1 g2 hg2 h3
        · exact hc h3

theorem mergeCandidates_pairwise {S : Type} (d : WordLMDecoder S)
    (hlaw : d.lm.LawfulCompare) (cands : List (Hyp S)) :
    (mergeCandidates d cands).Pairwise (fun a b => ¬ Mergeable d a b) := by
  have key : ∀ (l acc : List (Hyp S)), acc.Pairwise (fun a b => ¬ Mergeable d a b) →
      (l.foldl (fun acc2 h => insertMerged d h acc2) acc).Pairwise
        (fun a b => ¬ Mergeable d a b) := by
    intro l
    induction l with
    | nil =>
      intro acc h
      exact h
    | cons c rest ih =>
      intro acc h
      rw [List.foldl_cons]
      exact ih _ (insertMerged_pairwise d hlaw c acc h)
  exact key cands [] List.Pairwise.nil

theorem stepFrame_pairwise {S : Type} (d : WordLMDecoder S)
    (hlaw : d.lm.LawfulCompare) (beam : List (Hyp S)) (row : List ℚ) :
    (stepFrame d beam row).Pairwise (fun a b => ¬ Mergeable d a b) := by
  have hsymm : Symmetric (fun (a b : Hyp S) => ¬ Mergeable d a b) := by
    intro a b hab hba
    exact hab ⟨hba.1.symm, hlaw.1 _ _ hba.2⟩
  have h0 := mergeCandidates_pairwise d hlaw (beam.flatMap (expandHyp d row))
  have h1 : ((mergeCandidates d (beam.flatMap (expandHyp d row))).filter
      (fun h => (mergeCandidates d (beam.flatMap (expandHyp d row))).all
        (fun g => g.score - h.score ≤ d.opts.beamThreshold))).Pairwise
      (fun a b => ¬ Mergeable d a b) :=
    h0.sublist (List.filter_sublist _)
  have h2 := ((List.perm_insertionSort (fun (a b : Hyp S) => b.score ≤ a.score)
      _).pairwise_iff (fun hab => hsymm hab)).mpr h1
  exact h2.sublist (List.take_sublist d.opts.beamSize _)

theorem decodeStep_pairwise {S : Type} (d : WordLMDecoder S)
    (hlaw : d.lm.LawfulCompare) :
    ∀ (frames : List (List ℚ)) (beam : List (Hyp S)),
      beam.Pairwise (fun a b => ¬ Mergeable d a b) →
      (d.decodeStep beam frames).Pairwise (fun a b => ¬ Mergeable d a b) := by
  intro frames
  induction frames with
  | nil =>
    intro beam h
    exact h
  | cons row rest ih =>
    intro beam _
    exact ih (stepFrame d beam row) (stepFrame_pairwise d hlaw beam row)

theorem reachable_pairwise {S : Type} (d : WordLMDecoder S)
    (hlaw : d.lm.LawfulCompare) {s : List (Hyp S)} (hr : Reachable d s) :
    s.Pairwise (fun a b => ¬ Mergeable d a b) := by
  induction hr with
  | begin => exact List.pairwise_singleton _ _
  | step s frames _ ih => exact decodeStep_pairwise d hlaw frames s ih

theorem expandHyp_legal {S : Type} (d : WordLMDecoder S)
    (hwf : NodeWf d.trie.maxChildren d.trie.root) (row : List ℚ) (h : Hyp S)
    (hh : ∀ tok ∈ h.tokens, tok < d.trie.maxChildren) :
    ∀ h2 ∈ expandHyp d row h, ∀ tok ∈ h2.tokens, tok < d.trie.maxChildren := by
  intro h2 hmem tok htok
  obtain ⟨pc, hpc, he⟩ := mem_expandHyp d row h hmem
  rw [he] at htok
  rcases List.mem_append.mp htok with h1 | h1
  · exact hh tok h1
  · have h2eq : tok = pc.1 := by simpa using h1
    rw [h2eq]
    exact childrenAt_lt d.trie h.path hwf pc hpc

theorem stepFrame_legal {S : Type} (d : WordLMDecoder S)
    (hwf : NodeWf d.trie.maxChildren d.trie.root) (beam : List (Hyp S)) (row : List ℚ)
    (hbeam : ∀ h ∈ beam, ∀ tok ∈ h.tokens, tok < d.trie.maxChildren) :
    ∀ h ∈ stepFrame d beam row, ∀ tok ∈ h.tokens, tok < d.trie.maxChildren := by
  intro h hmem
  have h1 := mem_stepFrame d beam row hmem
  refine mergeCandidates_pres d (fun x => ∀ tok ∈ x.tokens, tok < d.trie.maxChildren)
    ?_ _ ?_ h h1
  · intro g h2 hg hh2 tok htok
    obtain ⟨w, hw, hshape⟩ := mergeHyp_shape d g h2
    rw [hshape] at htok
    rcases hw with rfl | rfl
    · exact hg tok htok
    · exact hh2 tok htok
  · intro c hc
    obtain ⟨b, hb, hcb⟩ := List.mem_flatMap.mp hc
    exact expandHyp_legal d hwf row b (hbeam b hb) c hcb

theorem decodeStep_legal {S : Type} (d : WordLMDecoder S)
    (hwf : NodeWf d.trie.maxChildren d.trie.root) :
    ∀ (frames : List (List ℚ)) (beam : List (Hyp S)),
      (∀ h ∈ beam, ∀ tok ∈ h.tokens, tok < d.trie.maxChildren) →
      ∀ h ∈ d.decodeStep beam frames, ∀ tok ∈ h.tokens, tok < d.trie.maxChildren := by
  intro frames
  induction frames with
  | nil =>
    intro beam hb
    exact hb
  | cons row rest ih =>
    intro beam hb
    exact ih (stepFrame d beam row) (stepFrame_legal d hwf beam row hb)

theorem reachable_legal {S : Type} (d : WordLMDecoder S)
    (hwf : NodeWf d.trie.maxChildren d.trie.root) {s : List (Hyp S)}
    (hr : Reachable d s) :
    ∀ h ∈ s, ∀ tok ∈ h.tokens, tok < d.trie.maxChildren := by
  induction hr with
  | begin =>
    intro h hh tok htok
    have he : h = ⟨0, [], d.lm.start false, [], []⟩ := by
      simpa [WordLMDecoder.decodeBegin] using hh
    rw [he] at htok
    exact absurd htok (List.not_mem_nil tok)
  | step s frames _ ih => exact decodeStep_legal d hwf frames s ih

/-- C8: `insert` fails when the token sequence contains an index ≥
`maxChildren`; a successful `insert` (and the fresh trie) preserves the
topology bound; consequently, with a well-formed trie the decoder only ever
produces hypotheses whose tokens are legal indices — legality of every
transition is determined by the trie topology alone. -/
theorem c8_insert_capacity {α : Type} (t : Trie α) (indices : List Nat) (w : Nat)
    (sc : α) {S : Type} (d : WordLMDecoder S) (bst : List (Hyp S)) :
    ((∃ i ∈ indices, t.maxChildren ≤ i) → t.insert indices w sc = none) ∧
    (∀ t2, t.insert indices w sc = some t2 → NodeWf t.maxChildren t.root →
      NodeWf t2.maxChildren t2.root) ∧
    NodeWf (Trie.make α t.maxChildren t.rootIdx).maxChildren
      (Trie.make α t.maxChildren t.rootIdx).root ∧
    (NodeWf d.trie.maxChildren d.trie.root → Reachable d bst →
      ∀ h ∈ bst, ∀ tok ∈ h.tokens, tok < d.trie.maxChildren) := by
  refine ⟨?_, ?_, ?_, ?_⟩
  · rintro ⟨i, hi, hge⟩
    rw [Trie.insert]
    split
    · rename_i hall
      rw [List.all_eq_true] at hall
      have h2 := hall i hi
      simp only [decide_eq_true_eq] at h2
      omega
    · rfl
  · intro t2 hins hwf
    rw [Trie.insert] at hins
    split at hins
    · rename_i hall
      rw [List.all_eq_true] at hall
      rw [← Option.some_inj.mp hins]
      exact insertNode_wf w sc indices t.root hwf
        (fun i hi => by simpa using hall i hi)
    · exact absurd hins (by simp)
  · exact NodeWf.mk [] ⊥ [] (fun p hp => absurd hp (List.not_mem_nil p))
      (fun p hp => absurd hp (List.not_mem_nil p))
  · intro hwf hr
    exact reachable_legal d hwf hr

/-- C8 witness: inserting the out-of-range index 5 into the 3-ary demo trie
fails, and the token 0 of a concrete hypothesis produced by a concrete
`decodeStep` is a legal index. -/
theorem c8_insert_capacity_witness :
    Trie.insert demoTrie [5] 1 (0 : ℚ) = none ∧ (0 : Nat) < demoTrie.maxChildren := by
  have hwf : NodeWf demoTrie.maxChildren demoTrie.root := by
    apply NodeWf.mk
    · intro p hp
      simp only [List.mem_singleton] at hp
      rw [hp]
      decide
    · intro p hp
      simp only [List.mem_singleton] at hp
      rw [hp]
      apply NodeWf.mk
      · intro q hq
        simp only [List.mem_singleton] at hq
        rw [hq]
        decide
      · intro q hq
        simp only [List.mem_singleton] at hq
        rw [hq]
        exact NodeWf.mk [(8, 2)] ⊥ [] (fun r hr => absurd hr (List.not_mem_nil r))
          (fun r hr => absurd hr (List.not_mem_nil r))
  refine ⟨(c8_insert_capacity demoTrie [5] 1 (0 : ℚ) demoDecoder
      (demoDecoder.decodeStep demoDecoder.decodeBegin [[1, 1, 1]])).1
      ⟨5, by simp, by decide⟩, ?_⟩
  exact (c8_insert_capacity demoTrie [5] 1 (0 : ℚ) demoDecoder
      (demoDecoder.decodeStep demoDecoder.decodeBegin [[1, 1, 1]])).2.2.2 hwf
    (Reachable.step _ _ Reachable.begin)
    ⟨1, [0], (), [], [0]⟩ (by with_unfolding_all decide) 0 (by decide)

/-- C2 (amended): with a positive beam width, after any `decodeStep` from any
state reachable in the Decoding phase, the number of live hypotheses is at
most `beamSize`. -/
theorem c2_beam_size {S : Type} (d : WordLMDecoder S) (s : List (Hyp S))
    (frames : List (List ℚ)) (hbs : 1 ≤ d.opts.beamSize) (hr : Reachable d s) :
    (d.decodeStep s frames).length ≤ d.opts.beamSize :=
  decodeStep_le d frames s (reachable_le d hbs hr)

/-- C2 counterexample: with `beamSize = 0` and an empty emissions block the
seed hypothesis survives `decodeStep` untouched, so the beam (1 hypothesis)
exceeds `beamSize`. -/
theorem c2_beam_size_counterexample :
    ¬ ((demoDecoder0.decodeStep demoDecoder0.decodeBegin []).length ≤
        demoDecoder0.opts.beamSize) := by
  decide

/-- C2 witness: concrete decoder, one emission frame. -/
theorem c2_beam_size_witness :
    (demoDecoder.decodeStep demoDecoder.decodeBegin [[1, 1, 1]]).length ≤
      demoDecoder.opts.beamSize :=
  c2_beam_size demoDecoder demoDecoder.decodeBegin [[1, 1, 1]] (by decide)
    Reachable.begin

/-- C3: `decode` resets the decoder (begin/step/end), so two calls with the
same emissions, options, trie and LM return identical result sequences and
identical final states, whatever internal beams the decoder held before each
call. -/
theorem c3_decode_deterministic {S : Type} (d : WordLMDecoder S)
    (s1 s2 : List (Hyp S)) (frames : List (List ℚ)) :
    d.decodeM s1 frames = d.decodeM s2 frames := rfl

/-- C4: in any state reachable through the Decoding phase (for an LM whose
comparator satisfies the total-order contract), no two hypotheses of the beam
share a trie node with LM states comparing equal; and a merge keeps exactly
the higher-scoring hypothesis (its back-pointer data included), with the score
log-added when the `logAdd` option is set. -/
theorem c4_merge_soundness {S : Type} (d : WordLMDecoder S) (s : List (Hyp S))
    (hlaw : d.lm.LawfulCompare) (hr : Reachable d s) :
    s.Pairwise (fun g h => ¬ Mergeable d g h) ∧
    (∀ g h : Hyp S, mergeHyp d g h =
      if d.opts.logAdd then
        { (if g.score < h.score then h else g) with score := d.lse g.score h.score }
      else (if g.score < h.score then h else g)) :=
  ⟨reachable_pairwise d hlaw hr, fun _ _ => rfl⟩

/-- C4 witness: the concrete one-frame beam is pairwise non-mergeable. -/
theorem c4_merge_soundness_witness :
    (demoDecoder.decodeStep demoDecoder.decodeBegin [[1, 1, 1]]).Pairwise
      (fun g h => ¬ Mergeable demoDecoder g h) :=
  (c4_merge_soundness demoDecoder _ ⟨fun _ _ _ => rfl, fun _ _ _ _ _ => rfl⟩
    (Reachable.step _ _ Reachable.begin)).1

/-- C5: `decode` is exactly the composition `decodeBegin; decodeStep;
decodeEnd; getAllFinalHypothesis`; its output is sorted by descending final
score and is (up to that sorting) the full set of final hypotheses. -/
theorem c5_decode_pipeline {S : Type} (d : WordLMDecoder S)
    (frames : List (List ℚ)) :
    d.decode frames =
      getAllFinalHypothesis (d.decodeEnd (d.decodeStep d.decodeBegin frames)) ∧
    (d.decode frames).Sorted (fun a b => b.score ≤ a.score) ∧
    List.Perm (d.decode frames)
      ((d.decodeEnd (d.decodeStep d.decodeBegin frames)).map DecodeResult.ofHyp) := by
  refine ⟨rfl, ?_, ?_⟩
  · haveI h1 : IsTotal (Hyp S) (fun a b => b.score ≤ a.score) :=
      ⟨fun a b => le_total b.score a.score⟩
    haveI h2 : IsTrans (Hyp S) (fun a b => b.score ≤ a.score) :=
      ⟨fun _ _ _ hab hbc => le_trans hbc hab⟩
    have hs := List.sorted_insertionSort (fun (a b : Hyp S) => b.score ≤ a.score)
      (d.decodeEnd (d.decodeStep d.decodeBegin frames))
    exact List.Pairwise.map DecodeResult.ofHyp (fun _ _ hab => hab) hs
  · exact (List.perm_insertionSort _ _).map DecodeResult.ofHyp

/-- C9: no operation of the system ever modifies a previously returned
`DecodeResult` — the `returned` log only ever grows by a fresh suffix — and
results are produced only by the completion operations (`decode`,
`getBestHypothesis`, `getAllFinalHypothesis`), never by
begin/step/end/prune. -/
theorem c9_result_immutability {S : Type} (d : WordLMDecoder S) :
    (∀ (op : DecoderOp) (s : DecoderSession S),
      ∃ fresh, (runOp d op s).returned = s.returned ++ fresh) ∧
    (∀ s : DecoderSession S, (runOp d DecoderOp.opBegin s).returned = s.returned) ∧
    (∀ (s : DecoderSession S) (frames),
      (runOp d (DecoderOp.opStep frames) s).returned = s.returned) ∧
    (∀ s : DecoderSession S, (runOp d DecoderOp.opEnd s).returned = s.returned) ∧
    (∀ (s : DecoderSession S) (n),
      (runOp d (DecoderOp.opPrune n) s).returned = s.returned) ∧
    (∀ (s : DecoderSession S) (frames),
      (runOp d (DecoderOp.opDecode frames) s).returned =
        s.returned ++ d.decode frames) := by
  refine ⟨?_, fun s => rfl, fun s frames => rfl, fun s => rfl, fun s n => rfl,
    fun s frames => rfl⟩
  intro op s
  cases op with
  | opBegin => exact ⟨[], (List.append_nil s.returned).symm⟩
  | opStep frames => exact ⟨[], (List.append_nil s.returned).symm⟩
  | opEnd => exact ⟨[], (List.append_nil s.returned).symm⟩
  | opDecode frames => exact ⟨d.decode frames, rfl⟩
  | opPrune n => exact ⟨[], (List.append_nil s.returned).symm⟩
  | opGetBest => exact ⟨[getBestHypothesis s.beam], rfl⟩
  | opGetAllFinal => exact ⟨getAllFinalHypothesis s.beam, rfl⟩

/-- C10: every one of the six bound `TrieNode` attributes is read-write at
the Python interface: assignment always succeeds, the written value is what
is subsequently read, the write lands in the owning trie's shared arena, and
other nodes are untouched.  Nothing restricts when such writes may happen
(in particular after `smear` or between decodes). -/
theorem c10_trienode_readwrite :
    (∀ (n : PyTrieNode) (v : List Nat), (setAttr n (TrieNodeAttr.children v)).children = v) ∧
    (∀ (n : PyTrieNode) (v : Int), (setAttr n (TrieNodeAttr.idx v)).idx = v) ∧
    (∀ (n : PyTrieNode) (v : Int), (setAttr n (TrieNodeAttr.nLabel v)).nLabel = v) ∧
    (∀ (n : PyTrieNode) (v : List Int), (setAttr n (TrieNodeAttr.label v)).label = v) ∧
    (∀ (n : PyTrieNode) (v : List ℚ), (setAttr n (TrieNodeAttr.score v)).score = v) ∧
    (∀ (n : PyTrieNode) (v : ℚ), (setAttr n (TrieNodeAttr.maxScore v)).maxScore = v) ∧
    (∀ (w : PyTrieArena) (i : Nat) (a : TrieNodeAttr) (n : PyTrieNode),
      w.nodes.get? i = some n →
      (writeAttr w i a).nodes.get? i = some (setAttr n a)) ∧
    (∀ (w : PyTrieArena) (i j : Nat) (a : TrieNodeAttr), j ≠ i →
      (writeAttr w i a).nodes.get? j = w.nodes.get? j) := by
  refine ⟨fun n v => rfl, fun n v => rfl, fun n v => rfl, fun n v => rfl,
    fun n v => rfl, fun n v => rfl, ?_, ?_⟩
  · intro w i a n h
    rw [writeAttr, h]
    have hlen : i < w.nodes.length := by
      by_contra hc
      push_neg at hc
      rw [List.get?_eq_none.mpr hc] at h
      exact Option.noConfusion h
    exact List.get?_set_eq_of_lt _ hlen
  · intro w i j a hne
    rw [writeAttr]
    cases hg : w.nodes.get? i with
    | none => rfl
    | some n => exact List.get?_set_ne _ w.nodes (Ne.symm hne)

/-- C10 witness: a concrete write of `maxScore` through handle 0 of a
two-node arena lands in the arena, reads back, and leaves node 1 alone. -/
theorem c10_trienode_readwrite_witness :
    (writeAttr ⟨[⟨[], 0, 0, [], [], 0⟩, ⟨[], 1, 0, [], [], 0⟩]⟩ 0
        (TrieNodeAttr.maxScore 9)).nodes.get? 0 =
      some (setAttr ⟨[], 0, 0, [], [], 0⟩ (TrieNodeAttr.maxScore 9)) ∧
    (writeAttr ⟨[⟨[], 0, 0, [], [], 0⟩, ⟨[], 1, 0, [], [], 0⟩]⟩ 0
        (TrieNodeAttr.maxScore 9)).nodes.get? 1 =
      (⟨[⟨[], 0, 0, [], [], 0⟩, ⟨[], 1, 0, [], [], 0⟩]⟩ : PyTrieArena).nodes.get? 1 ∧
    (setAttr ⟨[], 0, 0, [], [], 0⟩ (TrieNodeAttr.maxScore 9)).maxScore = 9 :=
  ⟨c10_trienode_readwrite.2.2.2.2.2.2.1 _ 0 _ _ rfl,
   c10_trienode_readwrite.2.2.2.2.2.2.2 _ 0 1 _ (by decide),
   c10_trienode_readwrite.2.2.2.2.2.1 _ 9⟩

end W2L
